import Mathlib

/- Verification development for the Oracle source module of connector-x
   (src/connectorx/src/sources/oracle/mod.rs).  Rust functions are embedded
   shallowly as Lean functions: database connections appear as explicit
   function parameters, channel traffic as explicit message lists, native
   rows as lists of cell values, and panics as explicit result variants. -/

/-- Modelled from the spec: `typesystem.rs` is not among the sources, so the
closed type set is taken from spec section 3 (signed 64-bit integer, double
float, text, date, date-time, date-time-with-timezone, each carrying a Bool
flag whose meaning the sources do not fix).  `mod.rs` line 152 constructs
the text tag as `VarChar(false)`. -/
inductive OracleTypeSystem where
  | Int (flag : Bool)
  | Float (flag : Bool)
  | VarChar (flag : Bool)
  | Date (flag : Bool)
  | Timestamp (flag : Bool)
  | TimestampTz (flag : Bool)
deriving DecidableEq, Repr

/-- Result of `OracleSource::fetch_metadata`: an assertion failure (Rust
panic), a surfaced error, or discovered column names and schema. -/
inductive MetaResult (E : Type) where
  | panicked
  | err (e : E)
  | ok (names : List String) (schema : List OracleTypeSystem)
deriving DecidableEq, Repr

variable {α β Q E P : Type}

/-- Loop of `fetch_metadata` (mod.rs lines 121-146): try each query's
limit-1 probe in order.  `some` means the loop returned or threw, `none`
that it fell through to the code after it.  A probe-execution error is
surfaced only at the last query (`Err(e) if i == self.queries.len() - 1`,
line 139); a rewrite error from `limit1_query_oracle(query)?` (line 123) is
thrown at once.  `limit1` embeds `limit1_query_oracle`, `runq` embeds
`conn.query` of the rewritten query, returning the column infos (name and
oracle type) together with the number of rows the query would yield — a
count the code never inspects. -/
def fetch_metadata_loop (fromType : β → OracleTypeSystem)
    (limit1 : Q → Except E Q)
    (runq : Q → Except E (List (String × β) × Nat)) :
    List Q → Option (Except E (List String × List OracleTypeSystem))
  | [] => none
  | [q] =>
    match limit1 q with
    | .error e => some (.error e)
    | .ok q1 =>
      match runq q1 with
      | .ok (cols, _) =>
          some (.ok (cols.map Prod.fst, cols.map (fun c => fromType c.2)))
      | .error e => some (.error e)
  | q :: q' :: rest =>
    match limit1 q with
    | .error e => some (.error e)
    | .ok q1 =>
      match runq q1 with
      | .ok (cols, _) =>
          some (.ok (cols.map Prod.fst, cols.map (fun c => fromType c.2)))
      | .error _ => fetch_metadata_loop fromType limit1 runq (q' :: rest)

/-- `OracleSource::fetch_metadata` (mod.rs lines 116-156): assert the query
list non-empty (line 118), run the probe loop, and if the loop falls
through execute `queries[0]` unmodified (line 148), tagging every column
`VarChar false` (line 152).  `raw` embeds `conn.query` of the unmodified
query, of which only the column names are used. -/
def fetch_metadata (fromType : β → OracleTypeSystem)
    (limit1 : Q → Except E Q)
    (runq : Q → Except E (List (String × β) × Nat))
    (raw : Q → Except E (List String))
    (queries : List Q) : MetaResult E :=
  match queries with
  | [] => .panicked
  | q0 :: _ =>
    match fetch_metadata_loop fromType limit1 runq queries with
    | some (.ok (names, schema)) => .ok names schema
    | some (.error e) => .err e
    | none =>
      match raw q0 with
      | .error e => .err e
      | .ok names => .ok names (names.map (fun _ => .VarChar false))

/-- `OracleSourcePartition::prepare` (mod.rs lines 233-245): take the
query's literal row limit when `get_limit` finds one, otherwise run the
count-rewritten query on the leased connection and use the returned scalar.
`getLimit` embeds `get_limit(&self.query, &OracleDialect {})?`, `countQuery`
the `count_query(...)?` rewrite, and `runScalar` the
`conn.query_row_as::<usize>` execution.  The second component of the result
records which queries the connection executed. -/
def prepare (getLimit : Except E (Option Nat)) (countQuery : Except E Q)
    (runScalar : Q → Except E Nat) : Except E (Nat × List Q) :=
  match getLimit with
  | .error e => .error e
  | .ok (some n) => .ok (n, [])
  | .ok none =>
    match countQuery with
    | .error e => .error e
    | .ok cq =>
      match runScalar cq with
      | .error e => .error e
      | .ok m => .ok (m, [cq])

/-- Number of `Done` sentinels (`None` messages, mod.rs line 177) in a
disposal-channel message list. -/
def doneCount : List (Option P) → Nat
  | [] => 0
  | some _ :: rest => doneCount rest
  | none :: rest => doneCount rest + 1

/-- Disposal-coordinator loop spawned by `OracleSource::partition` (mod.rs
lines 170-181): with `remaining` partitions outstanding, release each
received batch (`Some v`) and decrement on each sentinel (`None`), leaving
the loop when `remaining` reaches zero.  The result is `none` when the loop
would still be blocked in `recv` after consuming the whole message list,
otherwise the released batches in arrival order paired with the unconsumed
suffix. -/
def coordinator_run (remaining : Nat) (msgs : List (Option P)) :
    Option (List P × List (Option P)) :=
  match remaining, msgs with
  | 0, rest => some ([], rest)
  | _ + 1, [] => none
  | n + 1, some v :: rest =>
    (coordinator_run (n + 1) rest).map (fun pr => (v :: pr.1, pr.2))
  | n + 1, none :: rest => coordinator_run n rest

/-- `OracleTextSourceParser::finalize` (mod.rs lines 330-333): send one
`None` sentinel on the disposal channel and return `Ok(())`.  The channel
is modeled by the list of messages sent so far. -/
def finalize (sent : List (Option P)) : List (Option P) × Except E Unit :=
  (sent ++ [none], .ok ())

/-- `OracleTextSourceParser` (mod.rs lines 263-271): the lazy result
stream, the buffer capacity, the row buffer, the column count, and the
cursor position.  A native row is modeled as the list of its cell values. -/
structure OracleTextSourceParser (α : Type) where
  iter : List (List α)
  buf_size : Nat
  rowbuf : List (List α)
  ncols : Nat
  current_row : Nat
  current_col : Nat
deriving DecidableEq, Repr

/-- `OracleTextSourceParser::new` (mod.rs lines 274-289): empty buffer,
`ncols = schema.len()`, cursor at the origin. -/
def OracleTextSourceParser.new (iter : List (List α))
    (schema : List OracleTypeSystem) (buf_size : Nat) :
    OracleTextSourceParser α :=
  { iter := iter, buf_size := buf_size, rowbuf := [], ncols := schema.length,
    current_row := 0, current_col := 0 }

/-- Outcome of one `next_loc` call: a (row, col) location together with the
batch the call sent to the disposal channel (if any) and the new parser
state; the `Oracle EOF` signal (with the batch it sent first); or the
division-by-zero panic of the position advance (which in Rust strikes after
any batch was already sent, hence the batch argument). -/
inductive NextLocRes (α : Type) where
  | ok (loc : Nat × Nat) (batch : Option (List (List α)))
      (s : OracleTextSourceParser α)
  | eof (batch : Option (List (List α))) (s : OracleTextSourceParser α)
  | panicked (batch : Option (List (List α)))
deriving DecidableEq, Repr

/-- Position advance ending `next_loc` (mod.rs lines 319-322): return the
current location, then `row += (col + 1) / ncols; col = (col + 1) % ncols`.
In Rust the division panics when `ncols` is zero. -/
def OracleTextSourceParser.advance (batch : Option (List (List α)))
    (s : OracleTextSourceParser α) : NextLocRes α :=
  if s.ncols = 0 then .panicked batch
  else
    .ok (s.current_row, s.current_col) batch
      { s with current_row := s.current_row + (s.current_col + 1) / s.ncols,
               current_col := (s.current_col + 1) % s.ncols }

/-- `OracleTextSourceParser::next_loc` (mod.rs lines 291-323): on reaching
the end of the buffer, send the drained buffer to the disposal channel when
non-empty, pull up to `buf_size` fresh rows from the stream, throw
`Oracle EOF` when none arrived, else reset the cursor; finally return the
current location and advance. -/
def OracleTextSourceParser.next_loc (s : OracleTextSourceParser α) :
    NextLocRes α :=
  if s.rowbuf.length ≤ s.current_row then
    let batch : Option (List (List α)) :=
      if s.rowbuf.isEmpty then none else some s.rowbuf
    let newbuf := s.iter.take s.buf_size
    let rest := s.iter.drop s.buf_size
    if newbuf.isEmpty then
      .eof batch { s with rowbuf := [], iter := rest }
    else
      OracleTextSourceParser.advance batch
        { s with rowbuf := newbuf, iter := rest,
                 current_row := 0, current_col := 0 }
  else
    OracleTextSourceParser.advance none s

/-- Batch sent to the disposal channel by one `next_loc` call. -/
def NextLocRes.sentBatch : NextLocRes α → Option (List (List α))
  | .ok _ b _ => b
  | .eof b _ => b
  | .panicked b => b

/-- Trace of driving one partition to exhaustion: the (row, col) pairs
`next_loc` returned, the cells `produce` read (`self.rowbuf[ridx]` paired
with `cidx`, mod.rs lines 344-345), and the batches sent to the disposal
channel, in order. -/
inductive RunRes (α : Type) where
  | finished (locs : List (Nat × Nat)) (cells : List (List α × Nat))
      (batches : List (List (List α)))
  | panicked
  | outOfFuel
deriving DecidableEq, Repr

/-- Drive `next_loc`/`produce` repeatedly (the loop a destination runs per
partition) until the `Oracle EOF` signal, collecting the traversal trace.
`fuel` bounds the number of calls; `outOfFuel` never occurs once `fuel`
exceeds the number of calls needed. -/
def drive (fuel : Nat) (s : OracleTextSourceParser α) : RunRes α :=
  match fuel with
  | 0 => .outOfFuel
  | fuel + 1 =>
    match s.next_loc with
    | .panicked _ => .panicked
    | .eof batch _ => .finished [] [] batch.toList
    | .ok loc batch s' =>
      match drive fuel s' with
      | .finished locs cells batches =>
        .finished (loc :: locs) ((s'.rowbuf.getD loc.1 [], loc.2) :: cells)
          (batch.toList ++ batches)
      | r => r

/-- Cells `(r, j)` for `j ∈ [c, n)`: the tail of one row's row-major
cells. -/
def rowCellsFrom (r : List α) (n c : Nat) : List (List α × Nat) :=
  (List.range' c (n - c)).map (fun j => (r, j))

/-- Row-major enumeration of every cell of every row: the reading order the
spec promises. -/
def streamCells (rows : List (List α)) (n : Nat) : List (List α × Nat) :=
  rows.bind (fun r => rowCellsFrom r n 0)

/-- Remaining cells of a buffer read from cursor position `(i, c)` on. -/
def bufCellsFrom (rb : List (List α)) (i c n : Nat) : List (List α × Nat) :=
  match rb.drop i with
  | [] => []
  | r :: rest => rowCellsFrom r n c ++ streamCells rest n

/-- The batch a buffer will contribute at the next refill: itself when
non-empty, nothing otherwise. -/
def pendingBatch (rb : List (List α)) : List (List (List α)) :=
  if rb.isEmpty then [] else [rb]

/-- Consecutive chunks of size `B`: the successive refill buffers a stream
is split into. -/
def chunksOf : Nat → List (List α) → List (List (List α))
  | _, [] => []
  | 0, _ :: _ => []
  | B + 1, r :: rest => (r :: rest.take B) :: chunksOf (B + 1) (rest.drop B)
termination_by B rows => rows.length
decreasing_by
  simp only [List.length_drop, List.length_cons]
  omega

/-- Values the `produce` impls return for a cell trace: `row.get(cidx)`
looks the cell up in the fetched row. -/
def producedValues (cells : List (List α × Nat)) : List (Option α) :=
  cells.map (fun rc => rc.1.get? rc.2)

/-- The probe loop resolves on every non-empty query list: it either
returns a schema or throws, never falling through. -/
theorem fetch_metadata_loop_ne_none (fromType : β → OracleTypeSystem)
    (limit1 : Q → Except E Q)
    (runq : Q → Except E (List (String × β) × Nat)) :
    ∀ qs : List Q, qs ≠ [] →
      fetch_metadata_loop fromType limit1 runq qs ≠ none := by
  intro qs
  induction qs with
  | nil => intro h; exact absurd rfl h
  | cons q rest ih =>
    intro _
    cases rest with
    | nil =>
      cases hl : limit1 q with
      | error e => simp [fetch_metadata_loop, hl]
      | ok q1 =>
        cases hr : runq q1 with
        | error e => simp [fetch_metadata_loop, hl, hr]
        | ok pr => simp [fetch_metadata_loop, hl, hr]
    | cons q' rs =>
      cases hl : limit1 q with
      | error e => simp [fetch_metadata_loop, hl]
      | ok q1 =>
        cases hr : runq q1 with
        | error e =>
          simpa [fetch_metadata_loop, hl, hr] using ih (by simp)
        | ok pr => simp [fetch_metadata_loop, hl, hr]

/-- A probe-execution error on a non-last query is swallowed:
`fetch_metadata` behaves as if the query list started at the next query. -/
theorem fetch_metadata_swallow (fromType : β → OracleTypeSystem)
    (limit1 : Q → Except E Q)
    (runq : Q → Except E (List (String × β) × Nat))
    (raw : Q → Except E (List String))
    (q : Q) (q1 : Q) (e : E) (rest : List Q) (hrest : rest ≠ [])
    (hl : limit1 q = .ok q1) (hr : runq q1 = .error e) :
    fetch_metadata fromType limit1 runq raw (q :: rest) =
      fetch_metadata fromType limit1 runq raw rest := by
  obtain ⟨q', rs, rfl⟩ := List.exists_cons_of_ne_nil hrest
  have hloop : fetch_metadata_loop fromType limit1 runq (q :: q' :: rs) =
      fetch_metadata_loop fromType limit1 runq (q' :: rs) := by
    simp [fetch_metadata_loop, hl, hr]
  obtain ⟨res, hres⟩ := Option.ne_none_iff_exists'.mp
    (fetch_metadata_loop_ne_none fromType limit1 runq (q' :: rs) (by simp))
  simp only [fetch_metadata, hloop, hres]
  cases res with
  | error e' => rfl
  | ok pr => rfl

/-- C10: `fetch_metadata` called with an empty partition-query list panics
via the `assert!` at mod.rs line 118 rather than returning a metadata
error; a non-empty query list is an unchecked-by-type precondition. -/
theorem c10_empty_queries_panic (fromType : β → OracleTypeSystem)
    (limit1 : Q → Except E Q)
    (runq : Q → Except E (List (String × β) × Nat))
    (raw : Q → Except E (List String)) :
    fetch_metadata fromType limit1 runq raw [] = .panicked ∧
      (∀ e, fetch_metadata fromType limit1 runq raw [] ≠ .err e) ∧
      (∀ names schema,
        fetch_metadata fromType limit1 runq raw [] ≠ .ok names schema) := by
  refine ⟨rfl, fun e => ?_, fun names schema => ?_⟩ <;>
    simp [fetch_metadata]

/-- C3: during `fetch_metadata`, a probe-execution error on a non-last
query is swallowed and the next query tried; an error on the last query is
surfaced as the metadata error after the earlier failures were swallowed;
and the first successful probe supplies the discovered names and types with
the method returning at once — the result does not depend on the remaining
queries, which are not probed. -/
theorem c3_probe_error_chain (fromType : β → OracleTypeSystem)
    (limit1 : Q → Except E Q)
    (runq : Q → Except E (List (String × β) × Nat))
    (raw : Q → Except E (List String)) :
    (∀ q q1 e rest, rest ≠ [] → limit1 q = .ok q1 → runq q1 = .error e →
      fetch_metadata fromType limit1 runq raw (q :: rest) =
        fetch_metadata fromType limit1 runq raw rest) ∧
    (∀ pre q q1 e,
      (∀ p ∈ pre, ∃ p1 e', limit1 p = .ok p1 ∧ runq p1 = .error e') →
      limit1 q = .ok q1 → runq q1 = .error e →
      fetch_metadata fromType limit1 runq raw (pre ++ [q]) = .err e) ∧
    (∀ q q1 cols nfetched rest, limit1 q = .ok q1 →
      runq q1 = .ok (cols, nfetched) →
      fetch_metadata fromType limit1 runq raw (q :: rest) =
        .ok (cols.map Prod.fst) (cols.map (fun c => fromType c.2))) := by
  refine ⟨fetch_metadata_swallow fromType limit1 runq raw, ?_, ?_⟩
  · intro pre
    induction pre with
    | nil =>
      intro q q1 e _ hl hr
      simp [fetch_metadata, fetch_metadata_loop, hl, hr]
    | cons p pre ih =>
      intro q q1 e hall hl hr
      obtain ⟨p1, e', hp1, he'⟩ := hall p (by simp)
      rw [List.cons_append,
        fetch_metadata_swallow fromType limit1 runq raw p p1 e'
          (pre ++ [q]) (by simp) hp1 he']
      exact ih q q1 e (fun x hx => hall x (by simp [hx])) hl hr
  · intro q q1 cols nfetched rest hl hr
    cases rest with
    | nil => simp [fetch_metadata, fetch_metadata_loop, hl, hr]
    | cons q' rs => simp [fetch_metadata, fetch_metadata_loop, hl, hr]

/-- Witness for C3 at the spec's example: with probes
[Q1 → error, Q2 → error, Q3 → 3 rows], the discovered schema equals Q3's
probe schema. -/
theorem c3_probe_error_chain_witness :
    fetch_metadata (fun _ : Nat => OracleTypeSystem.Float true)
      (fun q : Nat => (Except.ok q : Except String Nat))
      (fun q => if q = 3 then .ok ([("x", 1)], 3) else .error "boom")
      (fun _ => .ok ["raw"]) [1, 2, 3] =
      .ok ["x"] [OracleTypeSystem.Float true] := by
  have h := c3_probe_error_chain (fun _ : Nat => OracleTypeSystem.Float true)
    (fun q : Nat => (Except.ok q : Except String Nat))
    (fun q => if q = 3 then .ok ([("x", 1)], 3) else .error "boom")
    (fun _ => .ok ["raw"])
  refine (h.1 1 1 "boom" [2, 3] (by decide) rfl rfl).trans ?_
  refine (h.1 2 2 "boom" [3] (by decide) rfl rfl).trans ?_
  exact h.2.2 3 3 [("x", 1)] 3 [] rfl rfl

/-- C1 is violated by the code: when a probe succeeds, the `Ok` arm
(mod.rs lines 124-138) returns at once without inspecting the row count, so
two probes that both succeed with zero rows make `fetch_metadata` return
the first probe's own column names and types.  The all-empty fallback at
lines 147-155 — which would have executed the raw first query (column name
"RAW" here) and tagged every column `VarChar false` — is unreachable.  Here
the probe of each query reports zero rows with a single column ("A",
integer-typed), yet the result carries "A" with the probe's integer tag and
is neither the raw query's names nor text-typed. -/
theorem c1_zero_row_probe_keeps_probe_schema :
    (fetch_metadata (fun _ : Nat => OracleTypeSystem.Int false)
        (fun q : Nat => (Except.ok (q + 1) : Except Nat Nat))
        (fun _ => Except.ok ([("A", (0 : Nat))], 0))
        (fun _ => Except.ok ["RAW"]) [10, 20] =
      MetaResult.ok ["A"] [OracleTypeSystem.Int false]) ∧
    (∀ b : Bool,
      fetch_metadata (fun _ : Nat => OracleTypeSystem.Int false)
        (fun q : Nat => (Except.ok (q + 1) : Except Nat Nat))
        (fun _ => Except.ok ([("A", (0 : Nat))], 0))
        (fun _ => Except.ok ["RAW"]) [10, 20] ≠
      MetaResult.ok ["RAW"] [OracleTypeSystem.VarChar b]) ∧
    (∀ b : Bool,
      fetch_metadata (fun _ : Nat => OracleTypeSystem.Int false)
        (fun q : Nat => (Except.ok (q + 1) : Except Nat Nat))
        (fun _ => Except.ok ([("A", (0 : Nat))], 0))
        (fun _ => Except.ok ["RAW"]) [10, 20] ≠
      MetaResult.ok ["A"] [OracleTypeSystem.VarChar b]) :=
  ⟨rfl, by decide, by decide⟩

/-- C4: `prepare` uses the query's literal row limit directly when one is
present — executing nothing on the connection, whatever `runScalar` would
answer — and otherwise executes the count-rewritten query on the leased
connection and uses the returned scalar. -/
theorem c4_prepare_row_count (countQuery : Except E Q) :
    (∀ (n : Nat) (runScalar : Q → Except E Nat),
      prepare (.ok (some n)) countQuery runScalar = .ok (n, [])) ∧
    (∀ (cq : Q) (m : Nat) (runScalar : Q → Except E Nat),
      countQuery = .ok cq → runScalar cq = .ok m →
      prepare (.ok none) countQuery runScalar = .ok (m, [cq])) := by
  constructor
  · intro n runScalar; rfl
  · intro cq m runScalar hcq hm; simp [prepare, hcq, hm]

/-- Witness for C4 at the spec's example: an explicit limit of 50 over a
1000-row table yields 50 with no executed query; no limit yields the
count-rewritten query's scalar 1000. -/
theorem c4_prepare_row_count_witness :
    (prepare (.ok (some 50)) (Except.ok (ε := Unit) (7 : Nat))
        (fun _ => .ok 1000) = .ok (50, [])) ∧
    (prepare (.ok none) (Except.ok (ε := Unit) (7 : Nat))
        (fun _ => .ok 1000) = .ok (1000, [7])) :=
  ⟨(c4_prepare_row_count (Except.ok (ε := Unit) (7 : Nat))).1 50
      (fun _ => .ok 1000),
    (c4_prepare_row_count (Except.ok (ε := Unit) (7 : Nat))).2 7 1000
      (fun _ => .ok 1000) rfl rfl⟩

/-- C5: starting from `remaining = partition_count`, the disposal
coordinator releases the payload of every Batch it receives and decrements
only on Done; it stops exactly at the `partition_count`-th Done — the
consumed prefix holds exactly that many Done messages — and with fewer Done
messages available it keeps waiting, whatever the Batch interleaving. -/
theorem c5_coordinator_stops_on_last_done (n : Nat) (msgs : List (Option P)) :
    (n ≤ doneCount msgs →
      ∃ pre rest, msgs = pre ++ rest ∧ doneCount pre = n ∧
        coordinator_run n msgs = some (pre.filterMap id, rest)) ∧
    (doneCount msgs < n → coordinator_run n msgs = none) := by
  induction msgs generalizing n with
  | nil =>
    constructor
    · intro h
      have hn : n = 0 := by
        simp only [doneCount] at h; omega
      subst hn
      exact ⟨[], [], rfl, rfl, rfl⟩
    · intro h
      cases n with
      | zero => exact absurd h (by omega)
      | succ k => rfl
  | cons m rest ih =>
    cases m with
    | some v =>
      constructor
      · intro h
        cases n with
        | zero => exact ⟨[], some v :: rest, rfl, rfl, rfl⟩
        | succ k =>
          have h' : k + 1 ≤ doneCount rest := by
            simpa [doneCount] using h
          obtain ⟨pre, rest', heq, hdc, hrun⟩ := (ih (k + 1)).1 h'
          refine ⟨some v :: pre, rest', by simp [heq], by simp [doneCount, hdc], ?_⟩
          simp [coordinator_run, hrun]
      · intro h
        cases n with
        | zero => exact absurd h (by omega)
        | succ k =>
          have h' : doneCount rest < k + 1 := by
            simpa [doneCount] using h
          simp [coordinator_run, (ih (k + 1)).2 h']
    | none =>
      constructor
      · intro h
        cases n with
        | zero => exact ⟨[], none :: rest, rfl, rfl, rfl⟩
        | succ k =>
          have h' : k ≤ doneCount rest := by
            simp only [doneCount] at h; omega
          obtain ⟨pre, rest', heq, hdc, hrun⟩ := (ih k).1 h'
          refine ⟨none :: pre, rest', by simp [heq], by simp [doneCount, hdc], ?_⟩
          simpa [coordinator_run] using hrun
      · intro h
        cases n with
        | zero => exact absurd h (by omega)
        | succ k =>
          have h' : doneCount rest < k := by
            simp only [doneCount] at h; omega
          simpa [coordinator_run] using (ih k).2 h'

/-- Witness for C5 at the spec's example: three partitions each sending two
Batches then one Done, interleaved; the coordinator consumes the whole
list, releases all six payloads in arrival order, and stops exactly at the
third Done. -/
theorem c5_coordinator_stops_on_last_done_witness :
    (3 ≤ doneCount
        ([some 1, some 4, none, some 2, some 5, none, some 3, some 6, none] :
          List (Option Nat))) ∧
    (∃ pre rest,
      ([some 1, some 4, none, some 2, some 5, none, some 3, some 6, none] :
          List (Option Nat)) = pre ++ rest ∧ doneCount pre = 3 ∧
        coordinator_run 3
            ([some 1, some 4, none, some 2, some 5, none, some 3, some 6,
              none] : List (Option Nat)) =
          some (pre.filterMap id, rest)) :=
  ⟨by decide,
    (c5_coordinator_stops_on_last_done 3
        [some 1, some 4, none, some 2, some 5, none, some 3, some 6, none]).1
      (by decide)⟩

/-- C8: each `finalize` call sends exactly one Done sentinel to the
disposal coordinator and returns success; it is not idempotent — a second
call sends a second Done, leaving the channel trace strictly longer. -/
theorem c8_finalize_one_done (sent : List (Option P)) :
    (finalize (E := E) sent).1 = sent ++ [none] ∧
    (finalize (E := E) sent).2 = .ok () ∧
    (finalize (E := E) (finalize (E := E) sent).1).1 =
      sent ++ [none, none] ∧
    (finalize (E := E) (finalize (E := E) sent).1).1 ≠
      (finalize (E := E) sent).1 := by
  refine ⟨rfl, rfl, by simp [finalize], fun h => ?_⟩
  have hlen := congrArg List.length h
  simp [finalize] at hlen

/-- Mid-buffer `next_loc` call: no channel traffic, return the cursor and
advance it. -/
theorem next_loc_mid (iter : List (List α)) (B : Nat) (rb : List (List α))
    (n i c : Nat) (h : i < rb.length) (hn : n ≠ 0) :
    OracleTextSourceParser.next_loc ⟨iter, B, rb, n, i, c⟩ =
      .ok (i, c) none ⟨iter, B, rb, n, i + (c + 1) / n, (c + 1) % n⟩ := by
  rw [OracleTextSourceParser.next_loc]
  simp only [if_neg (by simp; omega : ¬rb.length ≤ i)]
  rw [OracleTextSourceParser.advance]
  simp [hn]

/-- Mid-buffer `next_loc` call with a zero-column schema: the advance
divides by zero. -/
theorem next_loc_mid_zero (iter : List (List α)) (B : Nat)
    (rb : List (List α)) (i c : Nat) (h : i < rb.length) :
    OracleTextSourceParser.next_loc ⟨iter, B, rb, 0, i, c⟩ =
      .panicked none := by
  rw [OracleTextSourceParser.next_loc]
  simp only [if_neg (by simp; omega : ¬rb.length ≤ i)]
  rfl

/-- End-of-buffer `next_loc` call on a drained stream: the old buffer (when
non-empty) goes to the disposal channel and the call throws `Oracle EOF`. -/
theorem next_loc_eof (iter : List (List α)) (B : Nat) (rb : List (List α))
    (n i c : Nat) (h : rb.length ≤ i) (ht : iter.take B = []) :
    OracleTextSourceParser.next_loc ⟨iter, B, rb, n, i, c⟩ =
      .eof (if rb.isEmpty then none else some rb)
        ⟨iter.drop B, B, [], n, i, c⟩ := by
  rw [OracleTextSourceParser.next_loc]
  simp only [if_pos (by simpa using h : (⟨iter, B, rb, n, i, c⟩ :
    OracleTextSourceParser α).rowbuf.length ≤ i)]
  simp [ht]

/-- End-of-buffer `next_loc` call with rows still in the stream: the old
buffer (when non-empty) goes to the disposal channel, up to `buf_size` rows
are pulled, and the cursor restarts at the origin of the fresh buffer
before the usual advance. -/
theorem next_loc_refill (iter : List (List α)) (B : Nat)
    (rb : List (List α)) (n i c : Nat) (h : rb.length ≤ i)
    (ht : iter.take B ≠ []) (hn : n ≠ 0) :
    OracleTextSourceParser.next_loc ⟨iter, B, rb, n, i, c⟩ =
      .ok (0, 0) (if rb.isEmpty then none else some rb)
        ⟨iter.drop B, B, iter.take B, n, 1 / n, 1 % n⟩ := by
  rw [OracleTextSourceParser.next_loc]
  simp only [if_pos (by simpa using h : (⟨iter, B, rb, n, i, c⟩ :
    OracleTextSourceParser α).rowbuf.length ≤ i)]
  rw [if_neg (by simpa using ht)]
  rw [OracleTextSourceParser.advance]
  simp [hn]

/-- End-of-buffer `next_loc` call with rows still in the stream but a
zero-column schema: any batch is sent first, then the advance divides by
zero. -/
theorem next_loc_refill_zero (iter : List (List α)) (B : Nat)
    (rb : List (List α)) (i c : Nat) (h : rb.length ≤ i)
    (ht : iter.take B ≠ []) :
    OracleTextSourceParser.next_loc ⟨iter, B, rb, 0, i, c⟩ =
      .panicked (if rb.isEmpty then none else some rb) := by
  rw [OracleTextSourceParser.next_loc]
  simp only [if_pos (by simpa using h : (⟨iter, B, rb, 0, i, c⟩ :
    OracleTextSourceParser α).rowbuf.length ≤ i)]
  rw [if_neg (by simpa using ht)]
  rfl

/-- Unfolding `drive` after a successful `next_loc` call. -/
theorem drive_succ_ok (f : Nat) (s s' : OracleTextSourceParser α)
    (loc : Nat × Nat) (b : Option (List (List α)))
    (h : s.next_loc = .ok loc b s') :
    drive (f + 1) s =
      match drive f s' with
      | .finished locs cells batches =>
        .finished (loc :: locs) ((s'.rowbuf.getD loc.1 [], loc.2) :: cells)
          (b.toList ++ batches)
      | r => r := by
  simp [drive, h]

/-- Unfolding `drive` at the `Oracle EOF` signal. -/
theorem drive_succ_eof (f : Nat) (s s' : OracleTextSourceParser α)
    (b : Option (List (List α))) (h : s.next_loc = .eof b s') :
    drive (f + 1) s = .finished [] [] b.toList := by
  simp [drive, h]

/-- Unfolding one non-final cell of a row's cell tail. -/
theorem rowCellsFrom_cons (r : List α) (n c : Nat) (h : c < n) :
    rowCellsFrom r n c = (r, c) :: rowCellsFrom r n (c + 1) := by
  unfold rowCellsFrom
  have hnc : n - c = (n - (c + 1)) + 1 := by omega
  rw [hnc, List.range'_succ]
  simp

/-- A row's cell tail at or past the last column is empty. -/
theorem rowCellsFrom_end (r : List α) (n c : Nat) (h : n ≤ c) :
    rowCellsFrom r n c = [] := by
  unfold rowCellsFrom
  simp [Nat.sub_eq_zero_of_le h]

/-- Length of a row's cell tail. -/
theorem rowCellsFrom_length (r : List α) (n c : Nat) :
    (rowCellsFrom r n c).length = n - c := by
  simp [rowCellsFrom]

/-- Row-major cells of a prepended row. -/
theorem streamCells_cons (r : List α) (rows : List (List α)) (n : Nat) :
    streamCells (r :: rows) n = rowCellsFrom r n 0 ++ streamCells rows n :=
  rfl

/-- Row-major cells distribute over concatenation of row lists. -/
theorem streamCells_append (xs ys : List (List α)) (n : Nat) :
    streamCells (xs ++ ys) n = streamCells xs n ++ streamCells ys n := by
  simp [streamCells]

/-- A stream of `N` rows over `n` columns has `N * n` cells. -/
theorem streamCells_length (rows : List (List α)) (n : Nat) :
    (streamCells rows n).length = rows.length * n := by
  induction rows with
  | nil => simp [streamCells]
  | cons r rows ih =>
    simp only [streamCells_cons, List.length_append, rowCellsFrom_length,
      List.length_cons, ih, Nat.succ_mul]
    omega

/-- Buffer cells from a row start are the row-major cells of the buffer
suffix. -/
theorem bufCellsFrom_row_start (rb : List (List α)) (j n : Nat) :
    bufCellsFrom rb j 0 n = streamCells (rb.drop j) n := by
  unfold bufCellsFrom
  cases h : rb.drop j with
  | nil => rfl
  | cons r rest => rw [streamCells_cons]

/-- Buffer cells from a position at or past the end are none. -/
theorem bufCellsFrom_past_end (rb : List (List α)) (i c n : Nat)
    (h : rb.length ≤ i) :
    bufCellsFrom rb i c n = [] := by
  unfold bufCellsFrom
  rw [List.drop_eq_nil_of_le h]

/-- Unfolding the remaining buffer cells when the cursor row exists. -/
theorem bufCellsFrom_eq_of_drop (rb : List (List α)) (i c n : Nat)
    (r : List α) (rest : List (List α)) (h : rb.drop i = r :: rest) :
    bufCellsFrom rb i c n = rowCellsFrom r n c ++ streamCells rest n := by
  unfold bufCellsFrom
  rw [h]

/-- Reading cell `(i, c)` of a buffer and advancing the cursor by
`row += (c+1)/n; col = (c+1)%n` consumes exactly the head of the remaining
cells. -/
theorem bufCellsFrom_step (rb : List (List α)) (i c n : Nat)
    (hlt : i < rb.length) (hc : c < n) :
    bufCellsFrom rb i c n =
      (rb.getD i [], c) ::
        bufCellsFrom rb (i + (c + 1) / n) ((c + 1) % n) n := by
  have hdrop : rb.drop i = rb[i] :: rb.drop (i + 1) :=
    List.drop_eq_getElem_cons hlt
  have hgetD : rb.getD i [] = rb[i] := by
    rw [List.getD_eq_getElem?_getD, List.getElem?_eq_getElem hlt]
    simp
  by_cases hcn : c + 1 = n
  · have hdiv : (c + 1) / n = 1 := by rw [hcn]; exact Nat.div_self (by omega)
    have hmod : (c + 1) % n = 0 := by rw [hcn]; exact Nat.mod_self n
    rw [hdiv, hmod, bufCellsFrom_row_start,
      bufCellsFrom_eq_of_drop rb i c n _ _ hdrop,
      rowCellsFrom_cons _ _ _ hc, rowCellsFrom_end _ _ _ (by omega), hgetD]
    simp
  · have hlt2 : c + 1 < n := by omega
    have hdiv : (c + 1) / n = 0 := Nat.div_eq_of_lt hlt2
    have hmod : (c + 1) % n = c + 1 := Nat.mod_eq_of_lt hlt2
    rw [hdiv, hmod, Nat.add_zero,
      bufCellsFrom_eq_of_drop rb i c n _ _ hdrop,
      bufCellsFrom_eq_of_drop rb i (c + 1) n _ _ hdrop,
      rowCellsFrom_cons _ _ _ hc, hgetD]
    simp

/-- No chunks come from a drained stream. -/
theorem chunksOf_nil (B : Nat) : chunksOf B ([] : List (List α)) = [] := by
  cases B <;> simp [chunksOf]

/-- A positive capacity splits a non-empty stream into its first refill
buffer followed by the chunks of the remainder. -/
theorem chunksOf_cons (B : Nat) (rows : List (List α)) (hB : 1 ≤ B)
    (h : rows ≠ []) :
    chunksOf B rows = rows.take B :: chunksOf B (rows.drop B) := by
  cases B with
  | zero => exact absurd hB (by omega)
  | succ B =>
    cases rows with
    | nil => exact absurd rfl h
    | cons r rest => simp [chunksOf]

/-- The batch of an empty buffer is nothing; of a non-empty buffer, the
buffer itself. -/
theorem toList_batch (rb : List (List α)) :
    (if rb.isEmpty then none else some rb).toList = pendingBatch rb := by
  cases rb <;> simp [pendingBatch]

/-- The first cell of a fresh non-empty buffer, followed by the cells the
cursor position `(1/n, 1%n)` (the advance from the origin) still owes. -/
theorem streamCells_head_step (rb : List (List α)) (n : Nat) (hn : 1 ≤ n)
    (h : rb ≠ []) :
    streamCells rb n =
      (rb.getD 0 [], 0) :: bufCellsFrom rb (1 / n) (1 % n) n := by
  obtain ⟨r0, tb, rfl⟩ := List.exists_cons_of_ne_nil h
  by_cases h1 : n = 1
  · subst h1
    rw [streamCells_cons, rowCellsFrom_cons _ _ _ (by omega),
      rowCellsFrom_end _ _ _ (by omega)]
    rw [Nat.div_self (by omega : 0 < 1), Nat.mod_self,
      bufCellsFrom_row_start]
    simp
  · have h2 : 2 ≤ n := by omega
    rw [Nat.div_eq_of_lt (by omega), Nat.mod_eq_of_lt (by omega)]
    rw [streamCells_cons, rowCellsFrom_cons _ _ _ (by omega),
      bufCellsFrom_eq_of_drop (r0 :: tb) 0 1 n r0 tb (by simp)]
    simp

/-- Driving a partition from any reachable cursor state: the trace is the
remaining cells of the current buffer followed, chunk by chunk, by the
cells of the rest of the stream; the batches are the current buffer (when
non-empty) followed by the successive refill buffers; and the run ends in
the EOF signal once the stream drains. -/
theorem drive_aux (n B : Nat) (hn : 1 ≤ n) (hB : 1 ≤ B) :
    ∀ NI : Nat, ∀ iter : List (List α), iter.length ≤ NI →
    ∀ K : Nat, ∀ (rb : List (List α)) (i c : Nat),
      c < n → i ≤ rb.length → (rb.length - i) * n + (n - c) ≤ K →
    ∃ f0 : Nat, ∀ f : Nat, f0 ≤ f → ∃ locs : List (Nat × Nat),
      drive f (⟨iter, B, rb, n, i, c⟩ : OracleTextSourceParser α) =
        .finished locs (bufCellsFrom rb i c n ++ streamCells iter n)
          (pendingBatch rb ++ chunksOf B iter) ∧
      locs.length = (bufCellsFrom rb i c n ++ streamCells iter n).length := by
  intro NI
  induction NI using Nat.strong_induction_on with
  | _ NI ihN =>
  intro iter hiter K
  induction K with
  | zero =>
    intro rb i c hc hi hK
    exfalso
    generalize (rb.length - i) * n = t at hK
    omega
  | succ K ihK =>
    intro rb i c hc hi hK
    rcases Nat.lt_or_ge i rb.length with hlt | hge
    · -- mid buffer: one cell is read and the cursor advances
      have hnext := next_loc_mid iter B rb n i c hlt (by omega)
      by_cases hcn : c + 1 = n
      · -- the column wraps to the next row
        have hdiv : (c + 1) / n = 1 := by
          rw [hcn]; exact Nat.div_self (by omega)
        have hmod : (c + 1) % n = 0 := by rw [hcn]; exact Nat.mod_self n
        rw [hdiv, hmod] at hnext
        have hcells : bufCellsFrom rb i c n ++ streamCells iter n =
            (rb.getD i [], c) ::
              (bufCellsFrom rb (i + 1) 0 n ++ streamCells iter n) := by
          rw [bufCellsFrom_step rb i c n hlt hc, hdiv, hmod]
          rfl
        obtain ⟨f0, hf0⟩ := ihK rb (i + 1) 0 (by omega) (by omega) (by
          have h1 : rb.length - i = (rb.length - (i + 1)) + 1 := by omega
          rw [h1, Nat.succ_mul] at hK
          have h2 : n - c = 1 := by omega
          rw [h2] at hK
          generalize (rb.length - (i + 1)) * n = t at hK ⊢
          omega)
        refine ⟨f0 + 1, fun f hf => ?_⟩
        obtain ⟨f', rfl⟩ : ∃ f', f = f' + 1 := ⟨f - 1, by omega⟩
        obtain ⟨locs, hdr, hlen⟩ := hf0 f' (by omega)
        refine ⟨(i, c) :: locs, ?_, ?_⟩
        · rw [drive_succ_ok f' _ _ _ _ hnext, hdr, hcells]
          simp
        · rw [hcells]
          simp [hlen]
      · -- the column moves on within the same row
        have hlt2 : c + 1 < n := by omega
        have hdiv : (c + 1) / n = 0 := Nat.div_eq_of_lt hlt2
        have hmod : (c + 1) % n = c + 1 := Nat.mod_eq_of_lt hlt2
        rw [hdiv, hmod, Nat.add_zero] at hnext
        have hcells : bufCellsFrom rb i c n ++ streamCells iter n =
            (rb.getD i [], c) ::
              (bufCellsFrom rb i (c + 1) n ++ streamCells iter n) := by
          rw [bufCellsFrom_step rb i c n hlt hc, hdiv, hmod, Nat.add_zero]
          rfl
        obtain ⟨f0, hf0⟩ := ihK rb i (c + 1) (by omega) (by omega) (by
          generalize (rb.length - i) * n = t at hK ⊢
          omega)
        refine ⟨f0 + 1, fun f hf => ?_⟩
        obtain ⟨f', rfl⟩ : ∃ f', f = f' + 1 := ⟨f - 1, by omega⟩
        obtain ⟨locs, hdr, hlen⟩ := hf0 f' (by omega)
        refine ⟨(i, c) :: locs, ?_, ?_⟩
        · rw [drive_succ_ok f' _ _ _ _ hnext, hdr, hcells]
          simp
        · rw [hcells]
          simp [hlen]
    · -- end of the buffer: dispatch it and refill, or signal EOF
      by_cases hiter0 : iter = []
      · subst hiter0
        have hnext := next_loc_eof ([] : List (List α)) B rb n i c hge
          (by simp)
        refine ⟨1, fun f hf => ?_⟩
        obtain ⟨f', rfl⟩ : ∃ f', f = f' + 1 := ⟨f - 1, by omega⟩
        refine ⟨[], ?_, ?_⟩
        · rw [drive_succ_eof f' _ _ _ hnext, toList_batch,
            bufCellsFrom_past_end rb i c n hge]
          simp [streamCells, chunksOf_nil]
        · rw [bufCellsFrom_past_end rb i c n hge]
          simp [streamCells]
      · have htake : iter.take B ≠ [] := by
          rw [Ne, List.take_eq_nil_iff]
          push_neg
          exact ⟨by omega, hiter0⟩
        have hnext := next_loc_refill iter B rb n i c hge htake (by omega)
        have hlen1 : 1 ≤ iter.length := List.length_pos.mpr hiter0
        have htblen : 1 ≤ (iter.take B).length := List.length_pos.mpr htake
        obtain ⟨f0, hf0⟩ := ihN (NI - 1) (by omega) (iter.drop B)
          (by simp only [List.length_drop]; omega)
          (((iter.take B).length - 1 / n) * n + (n - 1 % n))
          (iter.take B) (1 / n) (1 % n)
          (Nat.mod_lt _ (by omega))
          (le_trans (Nat.div_le_self 1 n) htblen)
          (le_refl _)
        have hcells : bufCellsFrom rb i c n ++ streamCells iter n =
            ((iter.take B).getD 0 [], 0) ::
              (bufCellsFrom (iter.take B) (1 / n) (1 % n) n ++
                streamCells (iter.drop B) n) := by
          rw [bufCellsFrom_past_end rb i c n hge, List.nil_append]
          conv_lhs => rw [← List.take_append_drop B iter]
          rw [streamCells_append,
            streamCells_head_step (iter.take B) n hn htake]
          simp
        have hbatches : pendingBatch rb ++ chunksOf B iter =
            (if rb.isEmpty then none else some rb).toList ++
              (pendingBatch (iter.take B) ++ chunksOf B (iter.drop B)) := by
          rw [toList_batch, chunksOf_cons B iter hB hiter0]
          have hpb : pendingBatch (iter.take B) = [iter.take B] := by
            simp [pendingBatch, htake]
          rw [hpb]
          simp
        refine ⟨f0 + 1, fun f hf => ?_⟩
        obtain ⟨f', rfl⟩ : ∃ f', f = f' + 1 := ⟨f - 1, by omega⟩
        obtain ⟨locs, hdr, hlen⟩ := hf0 f' (by omega)
        refine ⟨(0, 0) :: locs, ?_, ?_⟩
        · rw [drive_succ_ok f' _ _ _ _ hnext, hdr, hcells, hbatches]
        · rw [hcells]
          simp [hlen]

/-- Driving a freshly opened partition cursor to the EOF signal yields
exactly the row-major cell enumeration of the stream, one batch per refill
chunk, and one location per cell. -/
theorem drive_spec (stream : List (List α)) (schema : List OracleTypeSystem)
    (B : Nat) (hs : schema ≠ []) (hB : 1 ≤ B) :
    ∃ f0, ∀ f, f0 ≤ f → ∃ locs,
      drive f (OracleTextSourceParser.new stream schema B) =
        .finished locs (streamCells stream schema.length)
          (chunksOf B stream) ∧
      locs.length = stream.length * schema.length := by
  have hn : 1 ≤ schema.length := List.length_pos.mpr hs
  obtain ⟨f0, hf0⟩ := drive_aux schema.length B hn hB stream.length stream
    (le_refl _)
    ((([] : List (List α)).length - 0) * schema.length + (schema.length - 0))
    [] 0 0 (by omega) (by simp) (le_refl _)
  refine ⟨f0, fun f hf => ?_⟩
  obtain ⟨locs, hdr, hlen⟩ := hf0 f hf
  have hempty : bufCellsFrom ([] : List (List α)) 0 0 schema.length = [] :=
    bufCellsFrom_past_end _ _ _ _ (by simp)
  refine ⟨locs, ?_, ?_⟩
  · have hnew : OracleTextSourceParser.new stream schema B =
        (⟨stream, B, [], schema.length, 0, 0⟩ :
          OracleTextSourceParser α) := rfl
    rw [hnew, hdr, hempty]
    simp [pendingBatch]
  · rw [hlen, hempty]
    simp [streamCells_length]

/-- Every successful `next_loc` call advances the cursor from the pair it
returned by `row += (col + 1) / ncols; col = (col + 1) % ncols`, leaving
the column count unchanged. -/
theorem next_loc_advance_formula (s s' : OracleTextSourceParser α)
    (r c : Nat) (b : Option (List (List α)))
    (h : s.next_loc = .ok (r, c) b s') :
    s'.current_row = r + (c + 1) / s.ncols ∧
      s'.current_col = (c + 1) % s.ncols ∧ s'.ncols = s.ncols := by
  obtain ⟨it, B0, rb, n0, i0, c0⟩ := s
  rcases Nat.eq_zero_or_pos n0 with hn | hn
  · subst hn
    exfalso
    rcases Nat.lt_or_ge i0 rb.length with hlt | hge
    · rw [next_loc_mid_zero it B0 rb i0 c0 hlt] at h
      exact NextLocRes.noConfusion h
    · by_cases ht : it.take B0 = []
      · rw [next_loc_eof it B0 rb 0 i0 c0 hge ht] at h
        exact NextLocRes.noConfusion h
      · rw [next_loc_refill_zero it B0 rb i0 c0 hge ht] at h
        exact NextLocRes.noConfusion h
  · rcases Nat.lt_or_ge i0 rb.length with hlt | hge
    · rw [next_loc_mid it B0 rb n0 i0 c0 hlt (by omega)] at h
      injection h with hloc hb hst
      injection hloc with hr hc
      subst hr; subst hc; subst hst
      exact ⟨rfl, rfl, rfl⟩
    · by_cases ht : it.take B0 = []
      · rw [next_loc_eof it B0 rb n0 i0 c0 hge ht] at h
        exact NextLocRes.noConfusion h
      · rw [next_loc_refill it B0 rb n0 i0 c0 hge ht (by omega)] at h
        injection h with hloc hb hst
        injection hloc with hr hc
        subst hr; subst hc; subst hst
        refine ⟨by simp, rfl, rfl⟩

/-- C2: over a non-empty schema of `ncols` columns and a stream of `N`
rows, driving the partition to the EOF signal returns exactly `N * ncols`
locations and reads every cell of every fetched row exactly once in
row-major order; and each successful `next_loc` call advances the cursor
from the returned pair by `row += (col + 1) / ncols;
col = (col + 1) % ncols`. -/
theorem c2_row_major_traversal (stream : List (List α))
    (schema : List OracleTypeSystem) (B : Nat) (hs : schema ≠ [])
    (hB : 1 ≤ B) :
    (∃ f0, ∀ f, f0 ≤ f → ∃ locs,
      drive f (OracleTextSourceParser.new stream schema B) =
        .finished locs (streamCells stream schema.length)
          (chunksOf B stream) ∧
      locs.length = stream.length * schema.length) ∧
    (∀ (s s' : OracleTextSourceParser α) (r c : Nat)
        (b : Option (List (List α))), s.next_loc = .ok (r, c) b s' →
      s'.current_row = r + (c + 1) / s.ncols ∧
        s'.current_col = (c + 1) % s.ncols ∧ s'.ncols = s.ncols) :=
  ⟨drive_spec stream schema B hs hB,
    fun s s' r c b h => next_loc_advance_formula s s' r c b h⟩

/-- Witness for C2: a 3-row stream over a 2-column schema is traversed in
exactly 3 * 2 steps with buffer capacity 2. -/
theorem c2_row_major_traversal_witness :
    (([OracleTypeSystem.VarChar false, OracleTypeSystem.Int true] :
        List OracleTypeSystem) ≠ []) ∧ (1 ≤ 2) ∧
    (∃ f0, ∀ f, f0 ≤ f → ∃ locs,
      drive f (OracleTextSourceParser.new
          ([[1, 2], [3, 4], [5, 6]] : List (List Nat))
          [OracleTypeSystem.VarChar false, OracleTypeSystem.Int true] 2) =
        .finished locs (streamCells [[1, 2], [3, 4], [5, 6]] 2)
          (chunksOf 2 [[1, 2], [3, 4], [5, 6]]) ∧
      locs.length = 3 * 2) :=
  ⟨by decide, by decide,
    (c2_row_major_traversal ([[1, 2], [3, 4], [5, 6]] : List (List Nat))
        [OracleTypeSystem.VarChar false, OracleTypeSystem.Int true] 2
        (by decide) (by decide)).1⟩

/-- C6: over the same stream and schema, any two buffer capacities ≥ 1
yield the same cell trace — hence `produce` returns the same value
sequence — while only the dispatched batches differ with the capacity. -/
theorem c6_buffer_size_invariant (stream : List (List α))
    (schema : List OracleTypeSystem) (B1 B2 : Nat) (hs : schema ≠ [])
    (h1 : 1 ≤ B1) (h2 : 1 ≤ B2) :
    ∃ f0, ∀ f, f0 ≤ f → ∃ locs1 locs2 cells1 cells2,
      drive f (OracleTextSourceParser.new stream schema B1) =
        .finished locs1 cells1 (chunksOf B1 stream) ∧
      drive f (OracleTextSourceParser.new stream schema B2) =
        .finished locs2 cells2 (chunksOf B2 stream) ∧
      cells1 = cells2 ∧ producedValues cells1 = producedValues cells2 := by
  obtain ⟨fa, ha⟩ := drive_spec stream schema B1 hs h1
  obtain ⟨fb, hb⟩ := drive_spec stream schema B2 hs h2
  refine ⟨max fa fb, fun f hf => ?_⟩
  obtain ⟨l1, e1, -⟩ := ha f (le_trans (le_max_left fa fb) hf)
  obtain ⟨l2, e2, -⟩ := hb f (le_trans (le_max_right fa fb) hf)
  exact ⟨l1, l2, _, _, e1, e2, rfl, rfl⟩

/-- Witness for C6: capacities 1 and 3 over the same 3-row, 2-column
stream. -/
theorem c6_buffer_size_invariant_witness :
    (([OracleTypeSystem.Int false, OracleTypeSystem.VarChar true] :
        List OracleTypeSystem) ≠ []) ∧ (1 ≤ 1) ∧ (1 ≤ 3) ∧
    (∃ f0, ∀ f, f0 ≤ f → ∃ locs1 locs2 cells1 cells2,
      drive f (OracleTextSourceParser.new
          ([[1, 2], [3, 4], [5, 6]] : List (List Nat))
          [OracleTypeSystem.Int false, OracleTypeSystem.VarChar true] 1) =
        .finished locs1 cells1 (chunksOf 1 [[1, 2], [3, 4], [5, 6]]) ∧
      drive f (OracleTextSourceParser.new
          ([[1, 2], [3, 4], [5, 6]] : List (List Nat))
          [OracleTypeSystem.Int false, OracleTypeSystem.VarChar true] 3) =
        .finished locs2 cells2 (chunksOf 3 [[1, 2], [3, 4], [5, 6]]) ∧
      cells1 = cells2 ∧ producedValues cells1 = producedValues cells2) :=
  ⟨by decide, by decide, by decide,
    c6_buffer_size_invariant ([[1, 2], [3, 4], [5, 6]] : List (List Nat))
      [OracleTypeSystem.Int false, OracleTypeSystem.VarChar true] 1 3
      (by decide) (by decide) (by decide)⟩

/-- C7: a `next_loc` call at the end of the buffer sends a batch to the
disposal coordinator exactly when the buffer is non-empty — the batch being
the fully consumed previous buffer itself; it then pulls up to `buf_size`
rows, signals EOF when and only when nothing was pulled, and otherwise
restarts the cursor at the origin of the fresh buffer. -/
theorem c7_refill_dispatch (iter : List (List α)) (B : Nat)
    (rb : List (List α)) (n i c : Nat) (hend : rb.length ≤ i) :
    ((OracleTextSourceParser.next_loc ⟨iter, B, rb, n, i, c⟩).sentBatch =
      if rb.isEmpty then none else some rb) ∧
    (iter.take B = [] →
      OracleTextSourceParser.next_loc ⟨iter, B, rb, n, i, c⟩ =
        .eof (if rb.isEmpty then none else some rb)
          ⟨iter.drop B, B, [], n, i, c⟩) ∧
    (iter.take B ≠ [] → 1 ≤ n →
      ∃ b s', OracleTextSourceParser.next_loc ⟨iter, B, rb, n, i, c⟩ =
          .ok (0, 0) b s' ∧
        s'.rowbuf = iter.take B ∧ s'.iter = iter.drop B) := by
  refine ⟨?_, fun ht => next_loc_eof iter B rb n i c hend ht,
    fun ht hn => ?_⟩
  · by_cases ht : iter.take B = []
    · rw [next_loc_eof iter B rb n i c hend ht]
      rfl
    · rcases Nat.eq_zero_or_pos n with hn | hn
      · subst hn
        rw [next_loc_refill_zero iter B rb i c hend ht]
        rfl
      · rw [next_loc_refill iter B rb n i c hend ht (by omega)]
        rfl
  · exact ⟨_, _, next_loc_refill iter B rb n i c hend ht (by omega),
      rfl, rfl⟩

/-- Witness for C7: a fully consumed one-row buffer is dispatched as the
batch when the next call refills from a two-row stream. -/
theorem c7_refill_dispatch_witness :
    ((([[9]] : List (List Nat)).length ≤ 1) ∧
      (OracleTextSourceParser.next_loc
          (⟨[[1], [2]], 1, [[9]], 1, 1, 0⟩ :
            OracleTextSourceParser Nat)).sentBatch = some [[9]]) :=
  ⟨by decide, (c7_refill_dispatch [[1], [2]] 1 [[9]] 1 1 0 (by decide)).1⟩

/-- C9 as stated is false: over an empty schema (`ncols = 0`) and an empty
stream, the first `next_loc` call returns the EOF error signal — the refill
pulls zero rows and throws before the division is reached — rather than
panicking. -/
theorem c9_empty_schema_counterexample :
    (OracleTextSourceParser.new ([] : List (List Nat))
        ([] : List OracleTypeSystem) 32).next_loc =
      .eof none ⟨[], 32, [], 0, 0, 0⟩ ∧
    ∀ b, (OracleTextSourceParser.new ([] : List (List Nat))
        ([] : List OracleTypeSystem) 32).next_loc ≠ .panicked b := by
  constructor
  · rfl
  · intro b h
    rw [show (OracleTextSourceParser.new ([] : List (List Nat))
        ([] : List OracleTypeSystem) 32).next_loc =
          .eof none ⟨[], 32, [], 0, 0, 0⟩ from rfl] at h
    exact NextLocRes.noConfusion h

/-- C9 (amended): with at least one column the advance arithmetic is total
and `next_loc` never panics; with an empty schema the first call panics by
division by zero exactly when the refill pulled at least one row — over an
empty stream it returns the EOF signal instead (see the counterexample). -/
theorem c9_zero_ncols_divides_by_zero :
    (∀ s : OracleTextSourceParser α, 1 ≤ s.ncols →
      ∀ b, s.next_loc ≠ .panicked b) ∧
    (∀ (iter : List (List α)) (B : Nat), iter ≠ [] → 1 ≤ B →
      (OracleTextSourceParser.new iter
          ([] : List OracleTypeSystem) B).next_loc = .panicked none) := by
  constructor
  · intro s hn b h
    obtain ⟨it, B0, rb, n0, i0, c0⟩ := s
    have hn0 : 1 ≤ n0 := hn
    rcases Nat.lt_or_ge i0 rb.length with hlt | hge
    · rw [next_loc_mid it B0 rb n0 i0 c0 hlt (by omega)] at h
      exact NextLocRes.noConfusion h
    · by_cases ht : it.take B0 = []
      · rw [next_loc_eof it B0 rb n0 i0 c0 hge ht] at h
        exact NextLocRes.noConfusion h
      · rw [next_loc_refill it B0 rb n0 i0 c0 hge ht (by omega)] at h
        exact NextLocRes.noConfusion h
  · intro iter B hiter hB
    have ht : iter.take B ≠ [] := by
      rw [Ne, List.take_eq_nil_iff]
      push_neg
      exact ⟨by omega, hiter⟩
    exact next_loc_refill_zero iter B ([] : List (List α)) 0 0 (by simp) ht

/-- Witness for the amended C9: a one-column parser never panics, and a
zero-column parser over a one-row stream panics on its first call. -/
theorem c9_zero_ncols_divides_by_zero_witness :
    (1 ≤ (⟨[[5]], 1, [], 1, 0, 0⟩ : OracleTextSourceParser Nat).ncols) ∧
    (∀ b, (⟨[[5]], 1, [], 1, 0, 0⟩ :
        OracleTextSourceParser Nat).next_loc ≠ .panicked b) ∧
    (([[5]] : List (List Nat)) ≠ []) ∧ (1 ≤ 1) ∧
    (OracleTextSourceParser.new ([[5]] : List (List Nat))
        ([] : List OracleTypeSystem) 1).next_loc = .panicked none :=
  ⟨by decide,
    c9_zero_ncols_divides_by_zero.1 ⟨[[5]], 1, [], 1, 0, 0⟩ (by decide),
    by decide, by decide,
    c9_zero_ncols_divides_by_zero.2 [[5]] 1 (by decide) (by decide)⟩
